import Mathlib

/-!
Verification of the retry-admission token bucket and the aws-chunked
streaming body transform of this repository.

The token bucket is embedded from
`rust-runtime/aws-smithy-runtime/src/client/retries/token_bucket.rs`:
the tokio semaphore count becomes a natural number, the `f64` fractional
accumulator and success reward become exact rationals, and the
`OwnedSemaphorePermit` returned by `acquire` becomes a `Permit` record
whose drop follows tokio semantics (releasing its permits back).

The chunked body transform and the deferred signing handoff are used by
`aws/rust-runtime/aws-inlineable/src/aws_chunked.rs` but implemented in
a crate that is not part of the sources here; those parts are modelled
from the specification and marked as such.
-/

/-- Error classification fed to `TokenBucket::acquire`, from
`aws_smithy_types::retry::ErrorKind`. -/
inductive ErrorKind where
  | TransientError
  | ThrottlingError
  | ServerError
  | ClientError
  deriving DecidableEq, Repr

/-- Default bucket capacity (`DEFAULT_CAPACITY` in the source). -/
def DEFAULT_CAPACITY : Nat := 500

/-- Default retry cost (`DEFAULT_RETRY_COST`). -/
def DEFAULT_RETRY_COST : Nat := 5

/-- Default timeout retry cost (`DEFAULT_RETRY_TIMEOUT_COST = DEFAULT_RETRY_COST * 2`). -/
def DEFAULT_RETRY_TIMEOUT_COST : Nat := DEFAULT_RETRY_COST * 2

/-- Number of tokens restored by one regeneration (`PERMIT_REGENERATION_AMOUNT`). -/
def PERMIT_REGENERATION_AMOUNT : Nat := 1

/-- Default success reward (`DEFAULT_SUCCESS_REWARD = 0.0`). -/
def DEFAULT_SUCCESS_REWARD : ℚ := 0

/-- Maximum permit count of a tokio semaphore (`Semaphore::MAX_PERMITS`,
`usize::MAX >> 3` on a 64-bit target). -/
def semaphoreMaxPermits : Nat := 2 ^ 61 - 1

/-- State of a `TokenBucket`: the semaphore's available permit count, the
capacity, the two retry costs, the success reward and the guarded
fractional accumulator. -/
structure TokenBucket where
  available : Nat
  maxPermits : Nat
  timeoutRetryCost : Nat
  retryCost : Nat
  successReward : ℚ
  fractionalTokens : ℚ
  deriving DecidableEq, Repr

/-- An owned semaphore permit as returned by `try_acquire_many_owned`:
records how many permits it holds. -/
structure Permit where
  numPermits : Nat
  deriving DecidableEq, Repr

namespace TokenBucket

/-- `TokenBucket::default()`. -/
def default : TokenBucket :=
  { available := DEFAULT_CAPACITY
    maxPermits := DEFAULT_CAPACITY
    timeoutRetryCost := DEFAULT_RETRY_TIMEOUT_COST
    retryCost := DEFAULT_RETRY_COST
    successReward := DEFAULT_SUCCESS_REWARD
    fractionalTokens := 0 }

/-- `TokenBucket::new(initial_quota)`: fresh semaphore with
`initial_quota` permits, the rest from `Default`. -/
def new (initialQuota : Nat) : TokenBucket :=
  { default with available := initialQuota, maxPermits := initialQuota }

/-- `TokenBucket::unlimited()`: maximum permits, zero costs, zero reward. -/
def unlimited : TokenBucket :=
  { available := semaphoreMaxPermits
    maxPermits := semaphoreMaxPermits
    timeoutRetryCost := 0
    retryCost := 0
    successReward := 0
    fractionalTokens := 0 }

/-- The cost chosen inside `TokenBucket::acquire`: the timeout cost for a
transient error, the standard retry cost otherwise. -/
def acquireCost (tb : TokenBucket) (err : ErrorKind) : Nat :=
  if err = ErrorKind.TransientError then tb.timeoutRetryCost else tb.retryCost

/-- `TokenBucket::acquire(err)`: `try_acquire_many_owned(retry_cost)`
succeeds exactly when the semaphore holds at least that many permits; on
success those permits leave the semaphore and are held by the returned
permit. -/
def acquire (tb : TokenBucket) (err : ErrorKind) : Option Permit × TokenBucket :=
  let cost := tb.acquireCost err
  if cost ≤ tb.available then
    (some ⟨cost⟩, { tb with available := tb.available - cost })
  else
    (none, tb)

/-- `TokenBucket::add_tokens(amount)`: credit `amount` permits, capped so
that `available` never exceeds `max_permits`. -/
def add_tokens (tb : TokenBucket) (amount : Nat) : TokenBucket :=
  let tokensToAdd := min amount (tb.maxPermits - tb.available)
  { tb with available := tb.available + tokensToAdd }

/-- `TokenBucket::regenerate_a_token()`: credit one whole token back. -/
def regenerate_a_token (tb : TokenBucket) : TokenBucket :=
  tb.add_tokens PERMIT_REGENERATION_AMOUNT

/-- `TokenBucket::reward_success()`: add the success reward (when
positive) to the fractional accumulator; if the accumulated integer part
reached at least one, subtract it from the accumulator and credit that
many whole tokens. -/
def reward_success (tb : TokenBucket) : TokenBucket :=
  let frac := if 0 < tb.successReward
    then tb.fractionalTokens + tb.successReward
    else tb.fractionalTokens
  let fullTokensAccumulated : ℤ := ⌊frac⌋
  if 1 ≤ fullTokensAccumulated then
    let tb' := { tb with fractionalTokens := frac - fullTokensAccumulated }
    tb'.add_tokens fullTokensAccumulated.toNat
  else
    { tb with fractionalTokens := frac }

end TokenBucket

/-- Dropping an `OwnedSemaphorePermit` (tokio semantics): the permits it
holds are released back to the semaphore, without capping. -/
def dropPermit (tb : TokenBucket) (p : Permit) : TokenBucket :=
  { tb with available := tb.available + p.numPermits }

/-- One operation on a shared token bucket, as invoked by the retry
strategy: a retry admission attempt, a periodic regeneration, or a
success reward. -/
inductive BucketOp where
  | acquireOp (err : ErrorKind)
  | regenerateOp
  | rewardOp
  deriving DecidableEq, Repr

/-- Apply one operation to a bucket (for an acquisition the permit, if
any, is retained by the caller and not dropped). -/
def applyOp (tb : TokenBucket) : BucketOp → TokenBucket
  | BucketOp.acquireOp err => (tb.acquire err).2
  | BucketOp.regenerateOp => tb.regenerate_a_token
  | BucketOp.rewardOp => tb.reward_success

/-- Run a sequence of operations left to right. -/
def runOps (tb : TokenBucket) : List BucketOp → TokenBucket
  | [] => tb
  | op :: rest => runOps (applyOp tb op) rest

/-- Number of successful acquisitions in `n` consecutive `acquire` calls
with a fixed failure kind, together with the final bucket state; the
permits are held, not dropped. -/
def acquireRun (tb : TokenBucket) (err : ErrorKind) : Nat → Nat × TokenBucket
  | 0 => (0, tb)
  | n + 1 =>
    let prev := acquireRun tb err n
    match prev.2.acquire err with
    | (some _, tb'') => (prev.1 + 1, tb'')
    | (none, tb'') => (prev.1, tb'')

/-- `TokenBucketBuilder`: optional capacity, costs and reward, each
falling back to the documented default in `build`. -/
structure TokenBucketBuilder where
  capacity : Option Nat := none
  retryCost : Option Nat := none
  timeoutRetryCost : Option Nat := none
  successReward : Option ℚ := none
  deriving DecidableEq, Repr

/-- `TokenBucketBuilder::build()`. -/
def TokenBucketBuilder.build (b : TokenBucketBuilder) : TokenBucket :=
  { available := b.capacity.getD DEFAULT_CAPACITY
    maxPermits := b.capacity.getD DEFAULT_CAPACITY
    retryCost := b.retryCost.getD DEFAULT_RETRY_COST
    timeoutRetryCost := b.timeoutRetryCost.getD DEFAULT_RETRY_TIMEOUT_COST
    successReward := b.successReward.getD DEFAULT_SUCCESS_REWARD
    fractionalTokens := 0 }

/-- Iterate `reward_success` `n` times. -/
def rewardRun (tb : TokenBucket) : Nat → TokenBucket
  | 0 => tb
  | n + 1 => (rewardRun tb n).reward_success

/-- Bucket invariant claimed by the specification: the token count never
exceeds the capacity and the fractional accumulator stays in `[0, 1)`. -/
def BucketInv (tb : TokenBucket) : Prop :=
  tb.available ≤ tb.maxPermits ∧ 0 ≤ tb.fractionalTokens ∧ tb.fractionalTokens < 1

example : (TokenBucket.new 10).acquire ErrorKind.ThrottlingError
    = (some ⟨5⟩, { TokenBucket.new 10 with available := 5 }) := by decide

example : (acquireRun (TokenBucket.new 10) ErrorKind.ThrottlingError 3).1 = 2 := by decide

/-! ## Token bucket lemmas -/

theorem ratFloor_eq_intFloor (q : ℚ) : q.floor = ⌊q⌋ := by
  rw [Rat.floor_def' q, Rat.floor_def]

theorem acquire_of_le {tb : TokenBucket} {err : ErrorKind}
    (h : tb.acquireCost err ≤ tb.available) :
    tb.acquire err
      = (some ⟨tb.acquireCost err⟩,
          { tb with available := tb.available - tb.acquireCost err }) := by
  simp [TokenBucket.acquire, h]

theorem acquire_of_lt {tb : TokenBucket} {err : ErrorKind}
    (h : tb.available < tb.acquireCost err) :
    tb.acquire err = (none, tb) := by
  simp [TokenBucket.acquire, Nat.not_le.mpr h]

theorem acquireCost_set_available (tb : TokenBucket) (a : Nat) (err : ErrorKind) :
    ({ tb with available := a } : TokenBucket).acquireCost err = tb.acquireCost err := rfl

theorem acquireRun_spec (tb : TokenBucket) (err : ErrorKind)
    (hc : 0 < tb.acquireCost err) (n : Nat) :
    (acquireRun tb err n).1 = min n (tb.available / tb.acquireCost err) ∧
    (acquireRun tb err n).2
      = { tb with available :=
            tb.available - min n (tb.available / tb.acquireCost err) * tb.acquireCost err } := by
  set c := tb.acquireCost err with hcdef
  set a := tb.available with hadef
  induction n with
  | zero => simp [acquireRun]
  | succ n ih =>
    obtain ⟨ih1, ih2⟩ := ih
    by_cases hlt : n < a / c
    · have hmin : min n (a / c) = n := min_eq_left hlt.le
      have hmin2 : min (n + 1) (a / c) = n + 1 := min_eq_left hlt
      have hmul : (n + 1) * c ≤ a := (Nat.le_div_iff_mul_le hc).mp hlt
      have hmul2 : n * c + c ≤ a := by rw [Nat.succ_mul] at hmul; exact hmul
      have hle : c ≤ a - min n (a / c) * c := by rw [hmin]; omega
      have hstep : ({ tb with available := a - min n (a / c) * c } : TokenBucket).acquire err
          = (some ⟨c⟩, { tb with available := a - min n (a / c) * c - c }) :=
        acquire_of_le hle
      simp only [acquireRun]
      rw [ih2, hstep]
      refine ⟨by simp [ih1, hmin, hmin2], ?_⟩
      show ({ tb with available := a - min n (a / c) * c - c } : TokenBucket)
          = { tb with available := a - min (n + 1) (a / c) * c }
      congr 1
      rw [hmin, hmin2, Nat.succ_mul]
      omega
    · have hge : a / c ≤ n := Nat.not_lt.mp hlt
      have hmin : min n (a / c) = a / c := min_eq_right hge
      have hmin2 : min (n + 1) (a / c) = a / c := min_eq_right (by omega)
      have hdm : a / c * c + a % c = a := Nat.div_add_mod' a c
      have hmod : a % c < c := Nat.mod_lt a hc
      have hfail : a - min n (a / c) * c < c := by rw [hmin]; omega
      have hstep : ({ tb with available := a - min n (a / c) * c } : TokenBucket).acquire err
          = (none, { tb with available := a - min n (a / c) * c }) :=
        acquire_of_lt hfail
      simp only [acquireRun]
      rw [ih2, hstep]
      refine ⟨by simp [ih1, hmin, hmin2], ?_⟩
      show ({ tb with available := a - min n (a / c) * c } : TokenBucket)
          = { tb with available := a - min (n + 1) (a / c) * c }
      rw [hmin, hmin2]

/-! ## Claims C1 and C2 -/

/-- Claim C1: `acquire` charges the timeout cost for transient failures
and the standard cost otherwise, succeeds exactly when the bucket holds
at least that many tokens (deducting them), and otherwise returns
nothing; from a full bucket with a positive cost, `n` consecutive calls
with a fixed failure kind yield `min n (capacity / cost)` permits, every
call after the first `capacity / cost` ones fails, and in particular
with capacity `10` and standard cost `5` the first two calls succeed and
the third returns nothing. -/
theorem acquire_deduction_and_exhaustion :
    (∀ (tb : TokenBucket) (err : ErrorKind),
      tb.acquireCost err
          = (if err = ErrorKind.TransientError then tb.timeoutRetryCost else tb.retryCost) ∧
      ((tb.acquire err).1.isSome ↔ tb.acquireCost err ≤ tb.available) ∧
      (tb.acquireCost err ≤ tb.available →
        tb.acquire err
          = (some ⟨tb.acquireCost err⟩,
              { tb with available := tb.available - tb.acquireCost err })) ∧
      (tb.available < tb.acquireCost err → tb.acquire err = (none, tb))) ∧
    (∀ (tb : TokenBucket) (err : ErrorKind) (n : Nat),
      tb.available = tb.maxPermits → 0 < tb.acquireCost err →
      (acquireRun tb err n).1 = min n (tb.maxPermits / tb.acquireCost err) ∧
      (tb.maxPermits / tb.acquireCost err ≤ n →
        ((acquireRun tb err n).2.acquire err).1 = none)) ∧
    ((acquireRun (TokenBucket.new 10) ErrorKind.ThrottlingError 2).1 = 2 ∧
      ((acquireRun (TokenBucket.new 10) ErrorKind.ThrottlingError 2).2.acquire
          ErrorKind.ThrottlingError).1 = none) := by
  refine ⟨fun tb err => ⟨rfl, ?_, fun h => acquire_of_le h, fun h => acquire_of_lt h⟩,
    fun tb err n hfull hc => ?_, by decide, by decide⟩
  · constructor
    · intro hs
      by_contra hnot
      rw [acquire_of_lt (Nat.not_le.mp hnot)] at hs
      simp at hs
    · intro h
      rw [acquire_of_le h]
      rfl
  · obtain ⟨h1, h2⟩ := acquireRun_spec tb err hc n
    refine ⟨by rw [h1, hfull], fun hn => ?_⟩
    set c := tb.acquireCost err with hcdef
    set a := tb.available with hadef
    have hmin : min n (a / c) = a / c := min_eq_right (by rw [hfull]; exact hn)
    have hdm : a / c * c + a % c = a := Nat.div_add_mod' a c
    have hmod : a % c < c := Nat.mod_lt a hc
    have hfail : a - min n (a / c) * c < c := by rw [hmin]; omega
    have hstep : ({ tb with available := a - min n (a / c) * c } : TokenBucket).acquire err
        = (none, { tb with available := a - min n (a / c) * c }) :=
      acquire_of_lt hfail
    rw [h2, hstep]

/-- Witness for C1 at capacity `10`, standard cost `5`, three calls. -/
theorem acquire_deduction_and_exhaustion_witness :
    (acquireRun (TokenBucket.new 10) ErrorKind.ThrottlingError 3).1
      = min 3 ((TokenBucket.new 10).maxPermits
          / (TokenBucket.new 10).acquireCost ErrorKind.ThrottlingError) :=
  (acquire_deduction_and_exhaustion.2.1 (TokenBucket.new 10) ErrorKind.ThrottlingError 3
    rfl (by decide)).1

/-- Claim C2 counterexample: on a bounded bucket of capacity `10`, a
standard acquire succeeds with a five-token permit leaving five tokens,
and dropping that permit raises the available count back to ten — so
disposing a permit does change the available token count. -/
theorem permit_drop_changes_available :
    ((TokenBucket.new 10).acquire ErrorKind.ThrottlingError).1 = some ⟨5⟩ ∧
    ((TokenBucket.new 10).acquire ErrorKind.ThrottlingError).2.available = 5 ∧
    (dropPermit ((TokenBucket.new 10).acquire ErrorKind.ThrottlingError).2 ⟨5⟩).available
      = 10 := by
  decide

/-- Claim C2 (amended): a permit returned by `acquire` is a tokio
`OwnedSemaphorePermit`, so disposing it releases its tokens back to the
semaphore: dropping the permit of a successful acquire restores the
bucket to its exact pre-acquire state, rather than leaving the count
unchanged. -/
theorem permit_drop_restores (tb : TokenBucket) (err : ErrorKind) (p : Permit)
    (tb' : TokenBucket) (h : tb.acquire err = (some p, tb')) :
    dropPermit tb' p = tb ∧ tb'.available + p.numPermits = tb.available := by
  by_cases hle : tb.acquireCost err ≤ tb.available
  · rw [acquire_of_le hle] at h
    have hp : p = ⟨tb.acquireCost err⟩ := by
      have := congrArg Prod.fst h
      simpa using this.symm
    have ht : tb' = { tb with available := tb.available - tb.acquireCost err } := by
      have := congrArg Prod.snd h
      simpa using this.symm
    subst hp
    subst ht
    constructor
    · show ({ tb with available := tb.available - tb.acquireCost err + tb.acquireCost err }
          : TokenBucket) = tb
      have : tb.available - tb.acquireCost err + tb.acquireCost err = tb.available := by omega
      rw [this]
    · show tb.available - tb.acquireCost err + tb.acquireCost err = tb.available
      omega
  · rw [acquire_of_lt (Nat.not_le.mp hle)] at h
    have := congrArg Prod.fst h
    simp at this

/-- Witness for the amended C2 at capacity `10`, standard cost `5`. -/
theorem permit_drop_restores_witness :
    dropPermit ({ TokenBucket.new 10 with available := 5 }) ⟨5⟩ = TokenBucket.new 10 :=
  (permit_drop_restores (TokenBucket.new 10) ErrorKind.ThrottlingError ⟨5⟩
    ({ TokenBucket.new 10 with available := 5 }) (by decide)).1

/-! ## Reward and invariant lemmas -/

/-- The value the fractional accumulator holds inside `reward_success`
after the conditional credit, before settlement. -/
def rewardFrac (tb : TokenBucket) : ℚ :=
  if 0 < tb.successReward then tb.fractionalTokens + tb.successReward
  else tb.fractionalTokens

theorem reward_success_eq (tb : TokenBucket) :
    tb.reward_success
      = if 1 ≤ ⌊rewardFrac tb⌋ then
          TokenBucket.add_tokens
            { tb with fractionalTokens := rewardFrac tb - ⌊rewardFrac tb⌋ }
            (⌊rewardFrac tb⌋).toNat
        else { tb with fractionalTokens := rewardFrac tb } := rfl

theorem add_tokens_available (tb : TokenBucket) (m : Nat)
    (h : tb.available ≤ tb.maxPermits) :
    (tb.add_tokens m).available = min (tb.available + m) tb.maxPermits := by
  simp only [TokenBucket.add_tokens]
  omega

theorem add_tokens_le (tb : TokenBucket) (m : Nat)
    (h : tb.available ≤ tb.maxPermits) :
    (tb.add_tokens m).available ≤ tb.maxPermits := by
  simp only [TokenBucket.add_tokens]
  omega

theorem inv_acquire {tb : TokenBucket} (h : BucketInv tb) (err : ErrorKind) :
    BucketInv ((tb.acquire err).2) := by
  obtain ⟨h1, h2, h3⟩ := h
  by_cases hle : tb.acquireCost err ≤ tb.available
  · rw [acquire_of_le hle]
    exact ⟨by simp; omega, h2, h3⟩
  · rw [acquire_of_lt (Nat.not_le.mp hle)]
    exact ⟨h1, h2, h3⟩

theorem inv_add_tokens {tb : TokenBucket} (h : BucketInv tb) (m : Nat) :
    BucketInv (tb.add_tokens m) :=
  ⟨add_tokens_le tb m h.1, h.2.1, h.2.2⟩

theorem rewardFrac_nonneg {tb : TokenBucket} (h : 0 ≤ tb.fractionalTokens) :
    0 ≤ rewardFrac tb := by
  unfold rewardFrac
  split
  · next hpos => exact add_nonneg h hpos.le
  · exact h

theorem inv_reward_success {tb : TokenBucket} (h : BucketInv tb) :
    BucketInv tb.reward_success := by
  obtain ⟨h1, h2, h3⟩ := h
  have hF : 0 ≤ rewardFrac tb := rewardFrac_nonneg h2
  rw [reward_success_eq]
  split
  · next hfloor =>
    apply inv_add_tokens
    refine ⟨h1, ?_, ?_⟩
    · show 0 ≤ rewardFrac tb - ⌊rewardFrac tb⌋
      rw [Int.self_sub_floor]
      exact Int.fract_nonneg _
    · show rewardFrac tb - ⌊rewardFrac tb⌋ < 1
      rw [Int.self_sub_floor]
      exact Int.fract_lt_one _
  · next hfloor =>
    have h0 : ⌊rewardFrac tb⌋ = 0 := by
      have := Int.floor_nonneg.mpr hF
      omega
    have hlt : rewardFrac tb < 1 := by
      have := (Int.floor_eq_zero_iff.mp h0).2
      simpa using this
    exact ⟨h1, hF, hlt⟩

theorem inv_applyOp {tb : TokenBucket} (h : BucketInv tb) (op : BucketOp) :
    BucketInv (applyOp tb op) := by
  cases op with
  | acquireOp err => exact inv_acquire h err
  | regenerateOp => exact inv_add_tokens h _
  | rewardOp => exact inv_reward_success h

theorem inv_runOps {tb : TokenBucket} (h : BucketInv tb) (ops : List BucketOp) :
    BucketInv (runOps tb ops) := by
  induction ops generalizing tb with
  | nil => exact h
  | cons op rest ih => exact ih (inv_applyOp h op)

/-- Claim C3: every bucket produced by a constructor or the builder
satisfies the invariant `available ≤ capacity` with the fractional
accumulator in `[0, 1)`, and every finite sequence of `acquire`,
`regenerate_a_token` and `reward_success` operations preserves it
(`available` is a natural number, so it also never goes negative). -/
theorem bucket_invariant_holds :
    (∀ c : Nat, BucketInv (TokenBucket.new c)) ∧
    (∀ b : TokenBucketBuilder, BucketInv b.build) ∧
    BucketInv TokenBucket.unlimited ∧
    (∀ (tb : TokenBucket) (ops : List BucketOp), BucketInv tb → BucketInv (runOps tb ops)) := by
  refine ⟨fun c => ⟨le_refl c, le_refl 0, zero_lt_one⟩,
    fun b => ⟨le_refl _, le_refl 0, zero_lt_one⟩,
    ⟨le_refl _, le_refl 0, zero_lt_one⟩,
    fun tb ops h => inv_runOps h ops⟩

/-- Witness for C3 on a capacity-ten bucket and a three-operation run. -/
theorem bucket_invariant_holds_witness :
    BucketInv (runOps (TokenBucket.new 10)
      [BucketOp.acquireOp ErrorKind.TransientError, BucketOp.regenerateOp,
        BucketOp.acquireOp ErrorKind.ThrottlingError]) :=
  bucket_invariant_holds.2.2.2 (TokenBucket.new 10)
    [BucketOp.acquireOp ErrorKind.TransientError, BucketOp.regenerateOp,
      BucketOp.acquireOp ErrorKind.ThrottlingError]
    ⟨by decide, by decide, by decide⟩

/-- Claim C5: the unlimited bucket is a fixed point of every operation
sequence; `acquire` on it always succeeds with a zero-cost permit and
leaves the available count at the semaphore maximum, arbitrarily many
times, and `regenerate_a_token` and `reward_success` change nothing. -/
theorem unlimited_bucket_noop :
    (∀ err : ErrorKind,
      TokenBucket.unlimited.acquire err = (some ⟨0⟩, TokenBucket.unlimited)) ∧
    TokenBucket.unlimited.regenerate_a_token = TokenBucket.unlimited ∧
    TokenBucket.unlimited.reward_success = TokenBucket.unlimited ∧
    (∀ ops : List BucketOp, runOps TokenBucket.unlimited ops = TokenBucket.unlimited) ∧
    (∀ (ops : List BucketOp) (err : ErrorKind),
      ((runOps TokenBucket.unlimited ops).acquire err).1.isSome = true ∧
      ((runOps TokenBucket.unlimited ops).acquire err).2.available
        = TokenBucket.unlimited.available) := by
  have hcost : ∀ err : ErrorKind, TokenBucket.unlimited.acquireCost err = 0 := by
    intro err
    unfold TokenBucket.acquireCost
    split <;> rfl
  have hacq : ∀ err : ErrorKind,
      TokenBucket.unlimited.acquire err = (some ⟨0⟩, TokenBucket.unlimited) := by
    intro err
    have h := @acquire_of_le TokenBucket.unlimited err
      (by rw [hcost]; exact Nat.zero_le _)
    rw [hcost] at h
    simpa using h
  have hreg : TokenBucket.unlimited.regenerate_a_token = TokenBucket.unlimited := by
    show TokenBucket.unlimited.add_tokens PERMIT_REGENERATION_AMOUNT = TokenBucket.unlimited
    have hms : TokenBucket.unlimited.maxPermits - TokenBucket.unlimited.available = 0 :=
      Nat.sub_self _
    simp only [TokenBucket.add_tokens, hms, Nat.min_zero, Nat.add_zero]
  have hrew : TokenBucket.unlimited.reward_success = TokenBucket.unlimited := by
    rw [reward_success_eq]
    have hF : rewardFrac TokenBucket.unlimited = 0 := by
      unfold rewardFrac
      simp [TokenBucket.unlimited]
    rw [hF]
    simp only [Int.floor_zero, show ¬((1:ℤ) ≤ 0) by decide, if_false]
    rfl
  have hstep : ∀ op : BucketOp, applyOp TokenBucket.unlimited op = TokenBucket.unlimited := by
    intro op
    cases op with
    | acquireOp err => show (TokenBucket.unlimited.acquire err).2 = _; rw [hacq]
    | regenerateOp => exact hreg
    | rewardOp => exact hrew
  have hrun : ∀ ops : List BucketOp, runOps TokenBucket.unlimited ops = TokenBucket.unlimited := by
    intro ops
    induction ops with
    | nil => rfl
    | cons op rest ih => show runOps (applyOp _ op) rest = _; rw [hstep op]; exact ih
  refine ⟨hacq, hreg, hrew, hrun, fun ops err => ?_⟩
  rw [hrun ops, hacq err]
  exact ⟨rfl, rfl⟩

/-! ## Claim C4: fractional reward accumulation -/

theorem rewardRun_spec (tb : TokenBucket) (hr : 0 ≤ tb.successReward)
    (h0 : tb.fractionalTokens = 0) (hcap : tb.available ≤ tb.maxPermits) (n : Nat) :
    (rewardRun tb n).available
      = min (tb.available + (⌊(n : ℚ) * tb.successReward⌋).toNat) tb.maxPermits ∧
    (rewardRun tb n).fractionalTokens
      = (n : ℚ) * tb.successReward - ⌊(n : ℚ) * tb.successReward⌋ ∧
    (rewardRun tb n).maxPermits = tb.maxPermits ∧
    (rewardRun tb n).successReward = tb.successReward := by
  induction n with
  | zero =>
    refine ⟨?_, ?_, rfl, rfl⟩
    · simp [rewardRun, min_eq_left hcap]
    · simp [rewardRun, h0]
  | succ n ih =>
    obtain ⟨iha, ihf, ihm, ihr⟩ := ih
    have hF : rewardFrac (rewardRun tb n)
        = ((n : ℚ) + 1) * tb.successReward - ⌊(n : ℚ) * tb.successReward⌋ := by
      unfold rewardFrac
      rw [ihf, ihr]
      by_cases hpos : 0 < tb.successReward
      · rw [if_pos hpos]; ring
      · have hz : tb.successReward = 0 := le_antisymm (not_lt.mp hpos) hr
        rw [if_neg hpos, hz]
        simp
    have hmul : (n : ℚ) * tb.successReward ≤ ((n : ℚ) + 1) * tb.successReward := by
      nlinarith [hr]
    have hmono : ⌊(n : ℚ) * tb.successReward⌋ ≤ ⌊((n : ℚ) + 1) * tb.successReward⌋ :=
      Int.floor_le_floor hmul
    have hnn : 0 ≤ ⌊(n : ℚ) * tb.successReward⌋ :=
      Int.floor_nonneg.mpr (mul_nonneg (Nat.cast_nonneg n) hr)
    have hfloorF : ⌊rewardFrac (rewardRun tb n)⌋
        = ⌊((n : ℚ) + 1) * tb.successReward⌋ - ⌊(n : ℚ) * tb.successReward⌋ := by
      rw [hF, Int.floor_sub_int]
    have hsle : (rewardRun tb n).available ≤ (rewardRun tb n).maxPermits := by
      rw [iha, ihm]
      exact min_le_right _ _
    have hcast : ((n + 1 : Nat) : ℚ) = (n : ℚ) + 1 := by push_cast; ring
    have hrun : rewardRun tb (n + 1) = (rewardRun tb n).reward_success := rfl
    rw [hrun, reward_success_eq, hcast]
    by_cases h1 : 1 ≤ ⌊rewardFrac (rewardRun tb n)⌋
    · rw [if_pos h1]
      refine ⟨?_, ?_, ihm, ihr⟩
      · have hA : (TokenBucket.add_tokens { rewardRun tb n with fractionalTokens := rewardFrac (rewardRun tb n) - ⌊rewardFrac (rewardRun tb n)⌋ } (⌊rewardFrac (rewardRun tb n)⌋).toNat).available = min ((rewardRun tb n).available + (⌊rewardFrac (rewardRun tb n)⌋).toNat) (rewardRun tb n).maxPermits :=
          add_tokens_available _ _ hsle
        rw [hA, iha, ihm, hfloorF]
        omega
      · show rewardFrac (rewardRun tb n) - (⌊rewardFrac (rewardRun tb n)⌋ : ℚ) = _
        rw [hfloorF, hF]
        push_cast
        ring
    · rw [if_neg h1]
      have hv : ⌊((n : ℚ) + 1) * tb.successReward⌋ = ⌊(n : ℚ) * tb.successReward⌋ := by
        omega
      refine ⟨?_, ?_, ihm, ihr⟩
      · show (rewardRun tb n).available = _
        rw [iha, hv]
      · show rewardFrac (rewardRun tb n) = _
        rw [hF, hv]

/-- The rational two fifths as a raw reduced fraction (the `0.4` success
reward of the scenario). -/
def qTwoFifths : ℚ := ⟨2, 5, by decide, by decide⟩

/-- Bucket of the accumulation scenario: built with capacity ten and
success reward `0.4`, then emptied by one transient acquire (timeout
cost ten), exactly as in the source's fractional-token test. -/
def rewardScenarioBucket : TokenBucket :=
  ((TokenBucketBuilder.mk (some 10) none none (some qTwoFifths)).build.acquire
    ErrorKind.TransientError).2

/-- Claim C4: with a nonnegative reward `r` and a zero fractional
accumulator, `n` `reward_success` calls credit exactly `⌊n * r⌋` whole
tokens (capped at the capacity) and leave the accumulator holding the
fractional remainder `n * r - ⌊n * r⌋`; in the scenario with capacity
ten, reward `0.4` and an empty bucket, three calls credit exactly one
whole token and carry two tenths. -/
theorem reward_success_accumulation :
    (∀ (tb : TokenBucket) (n : Nat), 0 ≤ tb.successReward → tb.fractionalTokens = 0 →
      tb.available ≤ tb.maxPermits →
      (rewardRun tb n).available
        = min (tb.available + (⌊(n : ℚ) * tb.successReward⌋).toNat) tb.maxPermits ∧
      (rewardRun tb n).fractionalTokens
        = (n : ℚ) * tb.successReward - ⌊(n : ℚ) * tb.successReward⌋) ∧
    ((rewardRun rewardScenarioBucket 3).available = 1 ∧
      (rewardRun rewardScenarioBucket 3).fractionalTokens = 1 / 5) := by
  have hq : qTwoFifths = 2 / 5 := by
    norm_num [qTwoFifths, Rat.mk'_eq_divInt, Rat.divInt_eq_div]
  have hsb : rewardScenarioBucket.successReward = qTwoFifths := rfl
  have hr : (0 : ℚ) ≤ rewardScenarioBucket.successReward := by
    rw [hsb, hq]; norm_num
  have hs := rewardRun_spec rewardScenarioBucket hr rfl (by decide) 3
  have hfl : ⌊(3 : ℚ) * (2 / 5)⌋ = 1 := by
    norm_num [Int.floor_eq_iff]
  refine ⟨fun tb n hrw h0 hcap =>
      ⟨(rewardRun_spec tb hrw h0 hcap n).1, (rewardRun_spec tb hrw h0 hcap n).2.1⟩, ?_, ?_⟩
  · rw [hs.1, hsb, hq]
    rw [show rewardScenarioBucket.available = 0 from rfl]
    rw [show rewardScenarioBucket.maxPermits = 10 from rfl]
    push_cast
    rw [hfl]
    rfl
  · rw [hs.2.1, hsb, hq]
    push_cast
    rw [hfl]
    norm_num

/-- Witness for C4 at the scenario bucket with three reward calls. -/
theorem reward_success_accumulation_witness :
    (rewardRun rewardScenarioBucket 3).available
      = min (rewardScenarioBucket.available
          + (⌊(3 : ℚ) * rewardScenarioBucket.successReward⌋).toNat)
        rewardScenarioBucket.maxPermits :=
  (reward_success_accumulation.1 rewardScenarioBucket 3 (by decide) rfl (by decide)).1

/-! ## Chunked body transform

The `AwsChunkedBody` / `DeferredSigner` implementation lives in the
`aws-runtime` content-encoding module, which is not among the sources
here; only its caller (the `aws_chunked.rs` interceptor) is. The
definitions below are therefore modelled from the specification's data
model, drain protocol and wire format. -/

/-- Carriage return and line feed, the chunk and trailer line terminator. -/
def crlf : List Char := ['\r', '\n']

/-- Lowercase hexadecimal digit for a value below sixteen. -/
def hexDigit (n : Nat) : Char :=
  if n < 10 then Char.ofNat (48 + n) else Char.ofNat (87 + n)

/-- Fuelled most-significant-first hexadecimal digits of `n` (empty when
the fuel runs out or `n` is zero). -/
def hexCharsAux : Nat → Nat → List Char
  | 0, _ => []
  | fuel + 1, n =>
    if n < 16 then [hexDigit n] else hexCharsAux fuel (n / 16) ++ [hexDigit (n % 16)]

/-- Modelled from the spec: the ASCII-hex rendering of a chunk length
(`"c"` for twelve, `"0"` for the terminal chunk). -/
def hexChars (n : Nat) : List Char := hexCharsAux (n + 1) n

/-- Modelled from the spec: one payload chunk framed as ASCII-hex
length, CRLF, the raw bytes, CRLF. -/
def encodeChunk (s : List Char) : List Char :=
  hexChars s.length ++ crlf ++ s ++ crlf

/-- Split a stream into pieces of `k + 1` bytes (the last piece may be
shorter); the chunk size is a policy knob, kept positive by shape. -/
def chunksOfAux (k : Nat) : Nat → List Char → List (List Char)
  | 0, _ => []
  | _, [] => []
  | fuel + 1, c :: rest =>
    ((c :: rest).take (k + 1)) :: chunksOfAux k fuel ((c :: rest).drop (k + 1))

/-- Chunking of a payload into pieces of `k + 1` bytes. -/
def chunksOf (k : Nat) (s : List Char) : List (List Char) := chunksOfAux k s.length s

/-- Modelled from the spec: one trailer value provider — an immediately
known value, the running checksum finalized over the payload, or a
deferred signature awaited from the one-shot handoff. -/
inductive TrailerSpec where
  | immediate (name value : String)
  | checksum (name : String)
  | deferredSig (name : String)
  deriving DecidableEq, Repr

/-- Modelled from the spec: the eventual state of the one-shot handoff
slot at the moment the drain awaits it. A slot left `Empty` forever
would deadlock the drain and is excluded by the producer-side contract
(fulfill or abandon). -/
inductive HandoffOutcome where
  | fulfilled (v : String)
  | abandoned
  deriving DecidableEq, Repr

/-- Transport-level failure of the drain. -/
inductive DrainError where
  | handoffAbandoned
  deriving DecidableEq, Repr

/-- Observable steps of one drain, in emission order. -/
inductive DrainEvent where
  | emitPayloadChunk (bytes : List Char)
  | emitZeroChunk
  | requestDeferred
  | emitTrailer (bytes : List Char)
  deriving DecidableEq, Repr

/-- Modelled from the spec: the chunked body transform — the wrapped
payload, its pre-known decoded length, and the ordered trailer
providers. -/
structure ChunkedBodyTransform where
  declaredLength : Nat
  payload : List Char
  trailers : List TrailerSpec
  deriving DecidableEq, Repr

/-- Modelled from the spec: resolve the trailer providers in order
(step 3 of the drain protocol), recording a `requestDeferred` event each
time a deferred provider is awaited; an abandoned handoff aborts
resolution with `handoffAbandoned`. -/
def resolveTrailersT (chk : List Char → String) (ho : HandoffOutcome) (payload : List Char) :
    List TrailerSpec → List DrainEvent × Except DrainError (List (String × String))
  | [] => ([], Except.ok [])
  | TrailerSpec.immediate name value :: rest =>
    let pr := resolveTrailersT chk ho payload rest
    (pr.1, pr.2.map (fun fields => (name, value) :: fields))
  | TrailerSpec.checksum name :: rest =>
    let pr := resolveTrailersT chk ho payload rest
    (pr.1, pr.2.map (fun fields => (name, chk payload) :: fields))
  | TrailerSpec.deferredSig name :: rest =>
    match ho with
    | HandoffOutcome.fulfilled v =>
      let pr := resolveTrailersT chk ho payload rest
      (DrainEvent.requestDeferred :: pr.1,
        pr.2.map (fun fields => (name, v) :: fields))
    | HandoffOutcome.abandoned =>
      ([DrainEvent.requestDeferred], Except.error DrainError.handoffAbandoned)

/-- One trailer line `name:value` followed by CRLF. -/
def fieldLine (f : String × String) : List Char :=
  f.1.toList ++ ':' :: (f.2.toList ++ crlf)

/-- The trailer section: one line per field, then the terminating blank
line. -/
def trailerBytes (fields : List (String × String)) : List Char :=
  (fields.map fieldLine).flatten ++ crlf

/-- Modelled from the spec: the full drain of the transform as a trace
of events — payload chunks, the terminal zero-length chunk, the await of
any deferred provider, and (on success) the trailer emission — together
with the drain outcome. -/
def drainTrace (k : Nat) (chk : List Char → String) (ho : HandoffOutcome)
    (t : ChunkedBodyTransform) : List DrainEvent × Except DrainError Unit :=
  let chunkEvents :=
    (chunksOf k t.payload).map (fun ch => DrainEvent.emitPayloadChunk (encodeChunk ch))
  let pr := resolveTrailersT chk ho t.payload t.trailers
  match pr.2 with
  | Except.ok fields =>
    (chunkEvents ++ DrainEvent.emitZeroChunk :: pr.1
        ++ [DrainEvent.emitTrailer (trailerBytes fields)],
      Except.ok ())
  | Except.error e =>
    (chunkEvents ++ DrainEvent.emitZeroChunk :: pr.1, Except.error e)

/-- Bytes an event puts on the wire. -/
def emittedBytes : DrainEvent → List Char
  | DrainEvent.emitPayloadChunk b => b
  | DrainEvent.emitZeroChunk => '0' :: crlf
  | DrainEvent.requestDeferred => []
  | DrainEvent.emitTrailer b => b

/-- Modelled from the spec: the byte stream a successful drain puts on
the wire, or the transport error of a failed one. -/
def drain (k : Nat) (chk : List Char → String) (ho : HandoffOutcome)
    (t : ChunkedBodyTransform) : Except DrainError (List Char) :=
  match drainTrace k chk ho t with
  | (evs, Except.ok ()) => Except.ok ((evs.map emittedBytes).flatten)
  | (_, Except.error e) => Except.error e

/-- The exact wire shape claimed by the spec: framed chunks, the
terminal `"0"` chunk, the trailer lines, and the final blank line. -/
def wireBytes (chunks : List (List Char)) (fields : List (String × String)) : List Char :=
  (chunks.map encodeChunk).flatten ++ '0' :: crlf ++ (fields.map fieldLine).flatten ++ crlf

/-! ## A standard chunked-transfer-encoding decoder

Written against the spec's wire-format sentence, to state the round-trip
property of C6: hex length, CRLF, that many raw bytes, CRLF, repeated;
a zero length terminates the chunk list; then `name:value` CRLF trailer
lines up to a blank CRLF line. -/

/-- Numeric value of a hexadecimal digit character. -/
def hexVal (c : Char) : Option Nat :=
  if 48 ≤ c.toNat ∧ c.toNat ≤ 57 then some (c.toNat - 48)
  else if 97 ≤ c.toNat ∧ c.toNat ≤ 102 then some (c.toNat - 87)
  else if 65 ≤ c.toNat ∧ c.toNat ≤ 70 then some (c.toNat - 55)
  else none

/-- Consume hexadecimal digits greedily, folding them into `acc`. -/
def parseHexLoop : List Char → Nat → Nat × List Char
  | [], acc => (acc, [])
  | c :: rest, acc =>
    match hexVal c with
    | some d => parseHexLoop rest (16 * acc + d)
    | none => (acc, c :: rest)

/-- Read a hexadecimal number of at least one digit. -/
def parseHexNum : List Char → Option (Nat × List Char)
  | [] => none
  | c :: rest =>
    match hexVal c with
    | some _ => some (parseHexLoop (c :: rest) 0)
    | none => none

/-- Expect and consume a CRLF pair. -/
def dropCRLF : List Char → Option (List Char)
  | '\r' :: '\n' :: rest => some rest
  | _ => none

/-- Read exactly `n` raw bytes. -/
def readN (n : Nat) (s : List Char) : Option (List Char × List Char) :=
  if n ≤ s.length then some (s.take n, s.drop n) else none

/-- Decode framed chunks until the zero-length chunk, returning the
concatenated payload and the remaining input. -/
def decodeChunksLoop : Nat → List Char → Option (List Char × List Char)
  | 0, _ => none
  | fuel + 1, s =>
    match parseHexNum s with
    | none => none
    | some (len, s1) =>
      match dropCRLF s1 with
      | none => none
      | some s2 =>
        if len = 0 then some ([], s2)
        else
          match readN len s2 with
          | none => none
          | some (data, s3) =>
            match dropCRLF s3 with
            | none => none
            | some s4 =>
              match decodeChunksLoop fuel s4 with
              | none => none
              | some (restPayload, rem) => some (data ++ restPayload, rem)

/-- Split at the first occurrence of `c`, consuming it. -/
def splitAtChar (c : Char) : List Char → Option (List Char × List Char)
  | [] => none
  | x :: rest =>
    if x = c then some ([], rest)
    else
      match splitAtChar c rest with
      | some pr => some (x :: pr.1, pr.2)
      | none => none

/-- Whether the input begins with a CRLF pair (the blank line ending the
trailer section). -/
def startsWithCRLF : List Char → Bool
  | a :: b :: _ => a == '\r' && b == '\n'
  | _ => false

/-- Decode `name:value` CRLF trailer lines up to the blank line. -/
def decodeTrailersLoop : Nat → List Char → Option (List (String × String) × List Char)
  | 0, _ => none
  | fuel + 1, s =>
    if startsWithCRLF s then
      some ([], s.drop 2)
    else
      match splitAtChar ':' s with
      | none => none
      | some (name, s1) =>
        match splitAtChar '\r' s1 with
        | none => none
        | some (value, s2) =>
          match s2 with
          | '\n' :: s3 =>
            match decodeTrailersLoop fuel s3 with
            | none => none
            | some (fields, rest) =>
              some ((String.mk name, String.mk value) :: fields, rest)
          | _ => none

/-- Full decode of a chunked message: payload chunks, then trailer
fields, with nothing left over. -/
def decodeChunked (s : List Char) : Option (List Char × List (String × String)) :=
  match decodeChunksLoop (s.length + 1) s with
  | some (payload, rest) =>
    match decodeTrailersLoop (rest.length + 1) rest with
    | some (fields, []) => some (payload, fields)
    | _ => none
  | none => none

/-- A trailer name the wire format can carry losslessly: free of the
separator colon and of the carriage return. -/
def goodName (n : String) : Prop := ':' ∉ n.toList ∧ '\r' ∉ n.toList

/-- A trailer value the wire format can carry losslessly: free of the
carriage return. -/
def goodValue (v : String) : Prop := '\r' ∉ v.toList

instance (n : String) : Decidable (goodName n) :=
  inferInstanceAs (Decidable (':' ∉ n.toList ∧ '\r' ∉ n.toList))

instance (v : String) : Decidable (goodValue v) :=
  inferInstanceAs (Decidable ('\r' ∉ v.toList))

/-! ## Wire-format round-trip lemmas -/

theorem hexVal_hexDigit (n : Nat) (h : n < 16) : hexVal (hexDigit n) = some n := by
  interval_cases n <;> decide

theorem hexCharsAux_succ (fuel n : Nat) :
    hexCharsAux (fuel + 1) n
      = if n < 16 then [hexDigit n]
        else hexCharsAux fuel (n / 16) ++ [hexDigit (n % 16)] := rfl

theorem hexCharsAux_fuel (n : Nat) : ∀ f1 f2 : Nat, n < f1 → n < f2 →
    hexCharsAux f1 n = hexCharsAux f2 n := by
  induction n using Nat.strong_induction_on with
  | _ n ih =>
    intro f1 f2 h1 h2
    obtain ⟨fa, rfl⟩ : ∃ fa, f1 = fa + 1 := ⟨f1 - 1, by omega⟩
    obtain ⟨fb, rfl⟩ : ∃ fb, f2 = fb + 1 := ⟨f2 - 1, by omega⟩
    rw [hexCharsAux_succ, hexCharsAux_succ]
    by_cases h16 : n < 16
    · rw [if_pos h16, if_pos h16]
    · rw [if_neg h16, if_neg h16]
      have hdiv : n / 16 < n := Nat.div_lt_self (by omega) (by omega)
      rw [ih (n / 16) hdiv fa fb (by omega) (by omega)]

theorem hexChars_lt {n : Nat} (h : n < 16) : hexChars n = [hexDigit n] := by
  show hexCharsAux (n + 1) n = [hexDigit n]
  rw [hexCharsAux_succ, if_pos h]

theorem hexChars_ge {n : Nat} (h : 16 ≤ n) :
    hexChars n = hexChars (n / 16) ++ [hexDigit (n % 16)] := by
  show hexCharsAux (n + 1) n = hexCharsAux (n / 16 + 1) (n / 16) ++ [hexDigit (n % 16)]
  rw [hexCharsAux_succ, if_neg (by omega)]
  congr 1
  have hdiv : n / 16 < n := Nat.div_lt_self (by omega) (by omega)
  exact hexCharsAux_fuel (n / 16) n (n / 16 + 1) hdiv (by omega)

theorem hexChars_ne_nil (n : Nat) : hexChars n ≠ [] := by
  by_cases h : n < 16
  · rw [hexChars_lt h]; simp
  · rw [hexChars_ge (by omega)]; simp

theorem hexChars_head (n : Nat) :
    ∃ c cs d, hexChars n = c :: cs ∧ hexVal c = some d := by
  induction n using Nat.strong_induction_on with
  | _ n ih =>
    by_cases h : n < 16
    · exact ⟨hexDigit n, [], n, hexChars_lt h, hexVal_hexDigit n h⟩
    · obtain ⟨c, cs, d, hcs, hv⟩ := ih (n / 16) (Nat.div_lt_self (by omega) (by omega))
      refine ⟨c, cs ++ [hexDigit (n % 16)], d, ?_, hv⟩
      rw [hexChars_ge (by omega), hcs]
      rfl

theorem parseHexLoop_cons_hex {c : Char} {d : Nat} (h : hexVal c = some d)
    (rest : List Char) (acc : Nat) :
    parseHexLoop (c :: rest) acc = parseHexLoop rest (16 * acc + d) := by
  simp [parseHexLoop, h]

theorem parseHexLoop_stop {s : List Char}
    (h : s = [] ∨ ∃ c cs, s = c :: cs ∧ hexVal c = none) (acc : Nat) :
    parseHexLoop s acc = (acc, s) := by
  rcases h with rfl | ⟨c, cs, rfl, hc⟩
  · rfl
  · simp [parseHexLoop, hc]

theorem parseHexLoop_hexChars (n : Nat) : ∀ (acc : Nat) (rest : List Char),
    parseHexLoop (hexChars n ++ rest) acc
      = parseHexLoop rest (acc * 16 ^ (hexChars n).length + n) := by
  induction n using Nat.strong_induction_on with
  | _ n ih =>
    intro acc rest
    by_cases h : n < 16
    · rw [hexChars_lt h]
      rw [show ([hexDigit n] ++ rest) = hexDigit n :: rest from rfl]
      rw [parseHexLoop_cons_hex (hexVal_hexDigit n h)]
      congr 1
      simp only [List.length_singleton, pow_one]
      omega
    · have h16 : 16 ≤ n := by omega
      rw [hexChars_ge h16, List.append_assoc]
      rw [ih (n / 16) (Nat.div_lt_self (by omega) (by omega)) acc
        ([hexDigit (n % 16)] ++ rest)]
      rw [show ([hexDigit (n % 16)] ++ rest) = hexDigit (n % 16) :: rest from rfl]
      rw [parseHexLoop_cons_hex (hexVal_hexDigit _ (Nat.mod_lt _ (by omega)))]
      congr 1
      rw [List.length_append, List.length_singleton]
      have hdm : 16 * (n / 16) + n % 16 = n := Nat.div_add_mod n 16
      have hstep : 16 * (acc * 16 ^ (hexChars (n / 16)).length + n / 16) + n % 16
          = acc * (16 ^ (hexChars (n / 16)).length * 16) + (16 * (n / 16) + n % 16) := by
        ring
      rw [hstep, hdm, pow_succ]

theorem parseHexNum_hexChars (n : Nat) {rest : List Char}
    (hrest : rest = [] ∨ ∃ c cs, rest = c :: cs ∧ hexVal c = none) :
    parseHexNum (hexChars n ++ rest) = some (n, rest) := by
  obtain ⟨c, cs, d, hcs, hv⟩ := hexChars_head n
  have hshape : hexChars n ++ rest = c :: (cs ++ rest) := by rw [hcs]; rfl
  rw [hshape]
  show (match hexVal c with
    | some _ => some (parseHexLoop (c :: (cs ++ rest)) 0)
    | none => none) = some (n, rest)
  rw [hv]
  rw [show c :: (cs ++ rest) = hexChars n ++ rest from hshape.symm]
  rw [parseHexLoop_hexChars n 0 rest]
  rw [Nat.zero_mul, Nat.zero_add]
  rw [parseHexLoop_stop hrest]

theorem chunksOfAux_flatten (k : Nat) : ∀ (fuel : Nat) (s : List Char), s.length ≤ fuel →
    (chunksOfAux k fuel s).flatten = s := by
  intro fuel
  induction fuel with
  | zero =>
    intro s hs
    have hnil : s = [] := List.eq_nil_of_length_eq_zero (by omega)
    subst hnil
    rfl
  | succ fuel ih =>
    intro s hs
    match s with
    | [] => rfl
    | c :: rest =>
      show (((c :: rest).take (k + 1)) :: chunksOfAux k fuel ((c :: rest).drop (k + 1))).flatten
        = c :: rest
      rw [List.flatten_cons]
      rw [ih _ (by simp only [List.length_drop]; simp at hs ⊢; omega)]
      exact List.take_append_drop _ _

theorem chunksOf_flatten (k : Nat) (s : List Char) : (chunksOf k s).flatten = s :=
  chunksOfAux_flatten k s.length s (le_refl _)

theorem chunksOfAux_ne_nil (k : Nat) : ∀ (fuel : Nat) (s ch : List Char),
    ch ∈ chunksOfAux k fuel s → ch ≠ [] := by
  intro fuel
  induction fuel with
  | zero =>
    intro s ch h
    simp [chunksOfAux] at h
  | succ fuel ih =>
    intro s ch h
    match s with
    | [] => simp [chunksOfAux] at h
    | c :: rest =>
      rw [show chunksOfAux k (fuel + 1) (c :: rest)
          = ((c :: rest).take (k + 1)) :: chunksOfAux k fuel ((c :: rest).drop (k + 1))
        from rfl] at h
      rcases List.mem_cons.mp h with h1 | h2
      · subst h1
        simp
      · exact ih _ _ h2

theorem chunksOf_ne_nil (k : Nat) (s ch : List Char) (h : ch ∈ chunksOf k s) : ch ≠ [] :=
  chunksOfAux_ne_nil k s.length s ch h

theorem readN_exact (a b : List Char) : readN a.length (a ++ b) = some (a, b) := by
  unfold readN
  rw [if_pos (by simp)]
  rw [List.take_left, List.drop_left]

theorem decodeChunksLoop_encode : ∀ (chunks : List (List Char)) (rest : List Char) (fuel : Nat),
    chunks.length < fuel → (∀ ch ∈ chunks, ch ≠ []) →
    decodeChunksLoop fuel ((chunks.map encodeChunk).flatten ++ '0' :: '\r' :: '\n' :: rest)
      = some (chunks.flatten, rest) := by
  intro chunks
  induction chunks with
  | nil =>
    intro rest fuel hf _
    obtain ⟨f, rfl⟩ : ∃ f, fuel = f + 1 := ⟨fuel - 1, by omega⟩
    show decodeChunksLoop (f + 1) ('0' :: '\r' :: '\n' :: rest) = some ([], rest)
    rfl
  | cons ch chunks ih =>
    intro rest fuel hf hne
    obtain ⟨f, rfl⟩ : ∃ f, fuel = f + 1 := ⟨fuel - 1, by omega⟩
    have hch : ch ≠ [] := hne ch (List.mem_cons_self _ _)
    have hlen : ch.length ≠ 0 := by simpa using hch
    have hshape : ((ch :: chunks).map encodeChunk).flatten ++ '0' :: '\r' :: '\n' :: rest
        = hexChars ch.length
            ++ '\r' :: '\n' :: (ch ++ '\r' :: '\n'
              :: ((chunks.map encodeChunk).flatten ++ '0' :: '\r' :: '\n' :: rest)) := by
      simp [encodeChunk, crlf]
    rw [hshape]
    have h1 : parseHexNum (hexChars ch.length
        ++ '\r' :: '\n' :: (ch ++ '\r' :: '\n'
          :: ((chunks.map encodeChunk).flatten ++ '0' :: '\r' :: '\n' :: rest)))
        = some (ch.length, '\r' :: '\n' :: (ch ++ '\r' :: '\n'
          :: ((chunks.map encodeChunk).flatten ++ '0' :: '\r' :: '\n' :: rest))) :=
      parseHexNum_hexChars _ (Or.inr ⟨'\r', _, rfl, by decide⟩)
    have hrec := ih rest f (by simp only [List.length_cons] at hf; omega)
      (fun c hc => hne c (List.mem_cons_of_mem _ hc))
    simp only [decodeChunksLoop, h1, dropCRLF, hlen, if_false, readN_exact, hrec,
      List.flatten_cons]

theorem splitAtChar_exact (c : Char) : ∀ (a b : List Char), c ∉ a →
    splitAtChar c (a ++ c :: b) = some (a, b) := by
  intro a
  induction a with
  | nil =>
    intro b _
    show splitAtChar c (c :: b) = some ([], b)
    simp [splitAtChar]
  | cons x xs ih =>
    intro b hc
    have hx : ¬(x = c) := fun h => hc (h ▸ List.mem_cons_self _ _)
    show splitAtChar c (x :: (xs ++ c :: b)) = some (x :: xs, b)
    simp only [splitAtChar, if_neg hx, ih b (fun h => hc (List.mem_cons_of_mem _ h))]

theorem startsWithCRLF_cons_ne {c : Char} (h : c ≠ '\r') (s : List Char) :
    startsWithCRLF (c :: s) = false := by
  cases s with
  | nil => rfl
  | cons b t => simp [startsWithCRLF, h]

theorem decodeTrailersLoop_encode :
    ∀ (fields : List (String × String)) (rest : List Char) (fuel : Nat),
    fields.length < fuel → (∀ g ∈ fields, goodName g.1 ∧ goodValue g.2) →
    decodeTrailersLoop fuel ((fields.map fieldLine).flatten ++ '\r' :: '\n' :: rest)
      = some (fields, rest) := by
  intro fields
  induction fields with
  | nil =>
    intro rest fuel hf _
    obtain ⟨f, rfl⟩ : ∃ f, fuel = f + 1 := ⟨fuel - 1, by omega⟩
    show decodeTrailersLoop (f + 1) ('\r' :: '\n' :: rest) = some ([], rest)
    rfl
  | cons fld fields ih =>
    intro rest fuel hf hgood
    obtain ⟨f, rfl⟩ : ∃ f, fuel = f + 1 := ⟨fuel - 1, by omega⟩
    obtain ⟨name, value⟩ := fld
    obtain ⟨⟨hn1, hn2⟩, hv⟩ := hgood (name, value) (List.mem_cons_self _ _)
    have hshape : (((name, value) :: fields).map fieldLine).flatten ++ '\r' :: '\n' :: rest
        = name.toList ++ ':' :: (value.toList ++ '\r' :: '\n'
            :: ((fields.map fieldLine).flatten ++ '\r' :: '\n' :: rest)) := by
      simp [fieldLine, crlf]
    rw [hshape]
    have hstart : startsWithCRLF (name.toList ++ ':' :: (value.toList ++ '\r' :: '\n'
        :: ((fields.map fieldLine).flatten ++ '\r' :: '\n' :: rest))) = false := by
      match hnl : name.toList with
      | [] => exact startsWithCRLF_cons_ne (by decide) _
      | c :: cs =>
        have hc : c ≠ '\r' := fun h => hn2 (by rw [hnl, h]; exact List.mem_cons_self _ _)
        exact startsWithCRLF_cons_ne hc _
    have hsplit1 : splitAtChar ':' (name.toList ++ ':' :: (value.toList ++ '\r' :: '\n'
        :: ((fields.map fieldLine).flatten ++ '\r' :: '\n' :: rest)))
        = some (name.toList, value.toList ++ '\r' :: '\n'
            :: ((fields.map fieldLine).flatten ++ '\r' :: '\n' :: rest)) :=
      splitAtChar_exact ':' name.toList _ hn1
    have hsplit2 : splitAtChar '\r' (value.toList ++ '\r' :: '\n'
        :: ((fields.map fieldLine).flatten ++ '\r' :: '\n' :: rest))
        = some (value.toList, '\n' :: ((fields.map fieldLine).flatten ++ '\r' :: '\n' :: rest)) :=
      splitAtChar_exact '\r' value.toList _ hv
    have hrec := ih rest f (by simp only [List.length_cons] at hf; omega)
      (fun g hg => hgood g (List.mem_cons_of_mem _ hg))
    have hsn : String.mk name.toList = name := by cases name; rfl
    have hsv : String.mk value.toList = value := by cases value; rfl
    simp only [decodeTrailersLoop, hstart, Bool.false_eq_true, if_false, hsplit1, hsplit2,
      hrec, hsn, hsv]

theorem length_le_flatten_encode (chunks : List (List Char)) :
    chunks.length ≤ ((chunks.map encodeChunk).flatten).length := by
  induction chunks with
  | nil => simp
  | cons ch chunks ih =>
    simp only [List.map_cons, List.flatten_cons, List.length_append, List.length_cons]
    have h1 : 1 ≤ (encodeChunk ch).length := by
      unfold encodeChunk
      simp [List.length_append, crlf]
      omega
    omega

theorem length_le_flatten_fieldLine (fields : List (String × String)) :
    fields.length ≤ ((fields.map fieldLine).flatten).length := by
  induction fields with
  | nil => simp
  | cons g fields ih =>
    simp only [List.map_cons, List.flatten_cons, List.length_append, List.length_cons]
    have h1 : 1 ≤ (fieldLine g).length := by
      unfold fieldLine
      simp [List.length_append, crlf]
      omega
    omega

theorem decodeChunked_wireBytes (chunks : List (List Char)) (fields : List (String × String))
    (hch : ∀ ch ∈ chunks, ch ≠ []) (hf : ∀ g ∈ fields, goodName g.1 ∧ goodValue g.2) :
    decodeChunked (wireBytes chunks fields) = some (chunks.flatten, fields) := by
  have hshape : wireBytes chunks fields
      = (chunks.map encodeChunk).flatten ++ '0' :: '\r' :: '\n'
          :: ((fields.map fieldLine).flatten ++ '\r' :: '\n' :: []) := by
    simp [wireBytes, crlf]
  have hfuel1 : chunks.length < (wireBytes chunks fields).length + 1 := by
    have := length_le_flatten_encode chunks
    rw [hshape]
    simp only [List.length_append, List.length_cons]
    omega
  have hdec1 := decodeChunksLoop_encode chunks
    ((fields.map fieldLine).flatten ++ '\r' :: '\n' :: [])
    ((wireBytes chunks fields).length + 1) hfuel1 hch
  have hfuel2 : fields.length
      < ((fields.map fieldLine).flatten ++ '\r' :: '\n' :: []).length + 1 := by
    have := length_le_flatten_fieldLine fields
    simp only [List.length_append, List.length_cons]
    omega
  have hdec2 := decodeTrailersLoop_encode fields []
    (((fields.map fieldLine).flatten ++ '\r' :: '\n' :: []).length + 1) hfuel2 hf
  unfold decodeChunked
  rw [show wireBytes chunks fields
      = (chunks.map encodeChunk).flatten ++ '0' :: '\r' :: '\n'
          :: ((fields.map fieldLine).flatten ++ '\r' :: '\n' :: []) from hshape] at hdec1 ⊢
  rw [hdec1]
  simp only [hdec2]

/-! ## Drain lemmas -/

/-- Whether a trailer provider is the deferred signature. -/
def TrailerSpec.isDeferred : TrailerSpec → Bool
  | TrailerSpec.deferredSig _ => true
  | _ => false

/-- Whether any trailer provider must await the handoff. -/
def hasDeferred (ts : List TrailerSpec) : Bool := ts.any TrailerSpec.isDeferred

/-- The trailer fields a fully resolvable configuration produces. -/
def resolvedFields (chk : List Char → String) (v : String) (p : List Char) :
    List TrailerSpec → List (String × String)
  | [] => []
  | TrailerSpec.immediate n val :: rest => (n, val) :: resolvedFields chk v p rest
  | TrailerSpec.checksum n :: rest => (n, chk p) :: resolvedFields chk v p rest
  | TrailerSpec.deferredSig n :: rest => (n, v) :: resolvedFields chk v p rest

theorem resolve_events_request (chk : List Char → String) (ho : HandoffOutcome)
    (p : List Char) : ∀ (ts : List TrailerSpec) (e : DrainEvent),
    e ∈ (resolveTrailersT chk ho p ts).1 → e = DrainEvent.requestDeferred := by
  intro ts
  induction ts with
  | nil => intro e he; simp [resolveTrailersT] at he
  | cons tr rest ih =>
    intro e he
    cases tr with
    | immediate n val => exact ih e he
    | checksum n => exact ih e he
    | deferredSig n =>
      cases ho with
      | fulfilled v =>
        rcases List.mem_cons.mp he with h1 | h2
        · exact h1
        · exact ih e h2
      | abandoned =>
        simp only [resolveTrailersT] at he
        rcases List.mem_cons.mp he with h1 | h2
        · exact h1
        · simp at h2

theorem resolve_fulfilled (chk : List Char → String) (v : String) (p : List Char) :
    ∀ ts : List TrailerSpec,
    resolveTrailersT chk (HandoffOutcome.fulfilled v) p ts
      = (List.replicate (ts.countP (fun tr => TrailerSpec.isDeferred tr))
            DrainEvent.requestDeferred,
          Except.ok (resolvedFields chk v p ts)) := by
  intro ts
  induction ts with
  | nil => rfl
  | cons tr rest ih =>
    cases tr with
    | immediate n val =>
      simp [resolveTrailersT, resolvedFields, ih, List.countP_cons, TrailerSpec.isDeferred,
        Except.map]
    | checksum n =>
      simp [resolveTrailersT, resolvedFields, ih, List.countP_cons, TrailerSpec.isDeferred,
        Except.map]
    | deferredSig n =>
      simp [resolveTrailersT, resolvedFields, ih, List.countP_cons, TrailerSpec.isDeferred,
        Except.map, List.replicate_succ]

theorem resolve_abandoned (chk : List Char → String) (p : List Char) :
    ∀ ts : List TrailerSpec, hasDeferred ts = true →
    resolveTrailersT chk HandoffOutcome.abandoned p ts
      = ([DrainEvent.requestDeferred], Except.error DrainError.handoffAbandoned) := by
  intro ts
  induction ts with
  | nil => intro h; simp [hasDeferred] at h
  | cons tr rest ih =>
    intro h
    cases tr with
    | immediate n val =>
      have hrest : hasDeferred rest = true := by
        simpa [hasDeferred, TrailerSpec.isDeferred] using h
      simp [resolveTrailersT, ih hrest, Except.map]
    | checksum n =>
      have hrest : hasDeferred rest = true := by
        simpa [hasDeferred, TrailerSpec.isDeferred] using h
      simp [resolveTrailersT, ih hrest, Except.map]
    | deferredSig n => rfl

theorem flatten_emitted_requests (evs : List DrainEvent)
    (h : ∀ e ∈ evs, e = DrainEvent.requestDeferred) :
    (evs.map emittedBytes).flatten = [] := by
  induction evs with
  | nil => rfl
  | cons e rest ih =>
    have he : e = DrainEvent.requestDeferred := h e (List.mem_cons_self _ _)
    subst he
    simp only [List.map_cons, List.flatten_cons, emittedBytes, List.nil_append]
    exact ih (fun e2 h2 => h e2 (List.mem_cons_of_mem _ h2))

theorem drain_ok (k : Nat) (chk : List Char → String) (ho : HandoffOutcome)
    (t : ChunkedBodyTransform) (fields : List (String × String))
    (hres : (resolveTrailersT chk ho t.payload t.trailers).2 = Except.ok fields) :
    drain k chk ho t = Except.ok (wireBytes (chunksOf k t.payload) fields) := by
  have hnil := flatten_emitted_requests (resolveTrailersT chk ho t.payload t.trailers).1
    (resolve_events_request chk ho t.payload t.trailers)
  simp only [drain, drainTrace, hres]
  congr 1
  simp only [List.map_append, List.map_cons, List.map_nil, List.flatten_append,
    List.flatten_cons, List.flatten_nil, List.map_map, hnil]
  simp only [wireBytes, trailerBytes, Function.comp, emittedBytes, List.append_nil,
    List.nil_append, List.append_assoc, crlf]
  rw [show (emittedBytes ∘ fun ch => DrainEvent.emitPayloadChunk (encodeChunk ch))
      = encodeChunk from rfl]

/-! ## Claims C6, C8 and C9 -/

/-- Claim C6: when every trailer provider resolves, the drain produces
exactly the claimed wire format — framed chunks, the terminal `"0"`
chunk, `name:value` trailer lines and a final blank line — and a
standard chunked-transfer-encoding decoder recovers exactly the original
payload bytes and exactly the configured trailer fields; for
declared length twelve, payload `"Hello, world"` and one checksum
trailer field, the output is the chunk line holding hex length `c` and
the payload, the terminal zero chunk, then the checksum trailer line and
the blank line, each CRLF-terminated. -/
theorem chunked_roundtrip :
    (∀ (k : Nat) (chk : List Char → String) (ho : HandoffOutcome)
        (t : ChunkedBodyTransform) (fields : List (String × String)),
      t.declaredLength = t.payload.length →
      (resolveTrailersT chk ho t.payload t.trailers).2 = Except.ok fields →
      (∀ g ∈ fields, goodName g.1 ∧ goodValue g.2) →
      drain k chk ho t = Except.ok (wireBytes (chunksOf k t.payload) fields) ∧
      decodeChunked (wireBytes (chunksOf k t.payload) fields)
        = some (t.payload, fields)) ∧
    (∀ chk2 : List Char → String,
      drain 11 chk2 (HandoffOutcome.fulfilled "")
          ⟨12, "Hello, world".toList, [TrailerSpec.checksum "checksum"]⟩
        = Except.ok ("c\r\nHello, world\r\n0\r\nchecksum:".toList
            ++ ((chk2 "Hello, world".toList).toList ++ "\r\n\r\n".toList))) := by
  constructor
  · intro k chk ho t fields hdecl hres hgood
    refine ⟨drain_ok k chk ho t fields hres, ?_⟩
    rw [decodeChunked_wireBytes (chunksOf k t.payload) fields
      (chunksOf_ne_nil k t.payload) hgood]
    rw [chunksOf_flatten]
  · intro chk2
    rw [drain_ok 11 chk2 (HandoffOutcome.fulfilled "")
      ⟨12, "Hello, world".toList, [TrailerSpec.checksum "checksum"]⟩
      [("checksum", chk2 "Hello, world".toList)] rfl]
    congr 1
    show wireBytes (chunksOf 11 "Hello, world".toList)
        [("checksum", chk2 "Hello, world".toList)] = _
    simp only [wireBytes, fieldLine, crlf, List.map_cons, List.map_nil, List.flatten_cons,
      List.flatten_nil, List.append_nil, List.cons_append, List.append_assoc]
    rfl

/-- Witness for C6: a twelve-byte payload, a fixed checksum function and
a fulfilled handoff. -/
theorem chunked_roundtrip_witness :
    drain 11 (fun _ => "abc") (HandoffOutcome.fulfilled "")
        ⟨12, "Hello, world".toList, [TrailerSpec.checksum "checksum"]⟩
      = Except.ok (wireBytes
          (chunksOf 11 ("Hello, world".toList))
          [("checksum", "abc")]) :=
  (chunked_roundtrip.1 11 (fun _ => "abc") (HandoffOutcome.fulfilled "")
    ⟨12, "Hello, world".toList, [TrailerSpec.checksum "checksum"]⟩
    [("checksum", "abc")] rfl rfl (by decide)).1

/-- Claim C8: if the producer side of the handoff was dropped before
fulfilling (the slot is `Abandoned`), the drain of a transform with a
deferred trailer fails with `handoffAbandoned` — the awaiting consumer
fails instead of hanging — and no trailer bytes are emitted. -/
theorem abandoned_handoff_fails (k : Nat) (chk : List Char → String)
    (t : ChunkedBodyTransform) (hdef : hasDeferred t.trailers = true) :
    drain k chk HandoffOutcome.abandoned t = Except.error DrainError.handoffAbandoned ∧
    (drainTrace k chk HandoffOutcome.abandoned t).2
      = Except.error DrainError.handoffAbandoned ∧
    ∀ b, DrainEvent.emitTrailer b ∉ (drainTrace k chk HandoffOutcome.abandoned t).1 := by
  have hres := resolve_abandoned chk t.payload t.trailers hdef
  refine ⟨?_, ?_, ?_⟩
  · simp only [drain, drainTrace, hres]
  · simp only [drainTrace, hres]
  · intro b hmem
    simp only [drainTrace, hres] at hmem
    rcases List.mem_append.mp hmem with h1 | h2
    · obtain ⟨ch, _, habs⟩ := List.mem_map.mp h1
      exact DrainEvent.noConfusion habs
    · rcases List.mem_cons.mp h2 with h3 | h4
      · exact DrainEvent.noConfusion h3
      · rcases List.mem_singleton.mp h4 with h5
        exact DrainEvent.noConfusion h5

/-- Witness for C8: one deferred signature trailer, zero-byte payload. -/
theorem abandoned_handoff_fails_witness :
    drain 0 (fun _ => "") HandoffOutcome.abandoned
        ⟨0, [], [TrailerSpec.deferredSig "x-amz-trailer-signature"]⟩
      = Except.error DrainError.handoffAbandoned :=
  (abandoned_handoff_fails 0 (fun _ => "")
    ⟨0, [], [TrailerSpec.deferredSig "x-amz-trailer-signature"]⟩ rfl).1

/-- Claim C9: whenever the transform carries a deferred trailer, the
drain trace splits around a `requestDeferred` event whose prefix already
contains the terminal zero-length chunk (and every payload chunk, since
none occurs later) and no trailer emission, while everything after it
contains no payload chunk and no zero chunk — the deferred value is
awaited strictly after the whole payload and the zero chunk, and
strictly before any trailer bytes, whether the producer fulfilled early
or abandoned the slot. -/
theorem deferred_requested_after_payload_before_trailer (k : Nat)
    (chk : List Char → String) (ho : HandoffOutcome) (t : ChunkedBodyTransform)
    (hdef : hasDeferred t.trailers = true) :
    ∃ pre post, (drainTrace k chk ho t).1 = pre ++ DrainEvent.requestDeferred :: post ∧
      DrainEvent.emitZeroChunk ∈ pre ∧
      (∀ e ∈ pre, ∀ b, e ≠ DrainEvent.emitTrailer b) ∧
      (∀ e ∈ post,
        e ≠ DrainEvent.emitZeroChunk ∧ ∀ b, e ≠ DrainEvent.emitPayloadChunk b) := by
  cases ho with
  | abandoned =>
    have hres := resolve_abandoned chk t.payload t.trailers hdef
    refine ⟨(chunksOf k t.payload).map
        (fun ch => DrainEvent.emitPayloadChunk (encodeChunk ch)) ++ [DrainEvent.emitZeroChunk],
      [], ?_, ?_, ?_, ?_⟩
    · simp only [drainTrace, hres, List.append_assoc, List.cons_append, List.nil_append]
    · exact List.mem_append.mpr (Or.inr (List.mem_singleton.mpr rfl))
    · intro e he b
      rcases List.mem_append.mp he with h1 | h2
      · obtain ⟨ch, _, habs⟩ := List.mem_map.mp h1
        rw [← habs]
        simp
      · rw [List.mem_singleton.mp h2]
        simp
    · intro e he
      simp at he
  | fulfilled v =>
    have hres := resolve_fulfilled chk v t.payload t.trailers
    have hcnt : 0 < t.trailers.countP (fun tr => TrailerSpec.isDeferred tr) := by
      rcases List.any_eq_true.mp hdef with ⟨tr, htr, hd⟩
      exact List.countP_pos_iff.mpr ⟨tr, htr, hd⟩
    obtain ⟨m, hm⟩ : ∃ m, t.trailers.countP (fun tr => TrailerSpec.isDeferred tr) = m + 1 :=
      ⟨t.trailers.countP (fun tr => TrailerSpec.isDeferred tr) - 1, by omega⟩
    refine ⟨(chunksOf k t.payload).map
        (fun ch => DrainEvent.emitPayloadChunk (encodeChunk ch)) ++ [DrainEvent.emitZeroChunk],
      List.replicate m DrainEvent.requestDeferred
        ++ [DrainEvent.emitTrailer (trailerBytes (resolvedFields chk v t.payload t.trailers))],
      ?_, ?_, ?_, ?_⟩
    · simp only [drainTrace, hres, hm, List.replicate_succ, List.append_assoc,
        List.cons_append, List.nil_append]
    · exact List.mem_append.mpr (Or.inr (List.mem_singleton.mpr rfl))
    · intro e he b
      rcases List.mem_append.mp he with h1 | h2
      · obtain ⟨ch, _, habs⟩ := List.mem_map.mp h1
        rw [← habs]
        simp
      · rw [List.mem_singleton.mp h2]
        simp
    · intro e he
      rcases List.mem_append.mp he with h1 | h2
      · rw [List.eq_of_mem_replicate h1]
        refine ⟨by simp, fun b => by simp⟩
      · rw [List.mem_singleton.mp h2]
        refine ⟨by simp, fun b => by simp⟩

/-- Witness for C9: the transform of the C8 scenario, fulfilled early. -/
theorem deferred_requested_witness :
    ∃ pre post,
      (drainTrace 0 (fun _ => "") (HandoffOutcome.fulfilled "sig")
          ⟨0, [], [TrailerSpec.deferredSig "x-amz-trailer-signature"]⟩).1
        = pre ++ DrainEvent.requestDeferred :: post ∧
      DrainEvent.emitZeroChunk ∈ pre ∧
      (∀ e ∈ pre, ∀ b, e ≠ DrainEvent.emitTrailer b) ∧
      (∀ e ∈ post,
        e ≠ DrainEvent.emitZeroChunk ∧ ∀ b, e ≠ DrainEvent.emitPayloadChunk b) :=
  deferred_requested_after_payload_before_trailer 0 (fun _ => "")
    (HandoffOutcome.fulfilled "sig")
    ⟨0, [], [TrailerSpec.deferredSig "x-amz-trailer-signature"]⟩ rfl

/-! ## The aws-chunked content-encoding interceptor

Embedded from `modify_before_transmit` in
`aws/rust-runtime/aws-inlineable/src/aws_chunked.rs`. -/

/-- The outgoing request body as the interceptor observes it: an
in-memory body whose full bytes are available (`bytes()` returns them),
a streaming body with an optional exact size hint, or the body after
replacement by the aws-chunked framing. -/
inductive SdkBody where
  | inMemory (bytes : List Char)
  | streaming (sizeHintExact : Option Nat)
  | awsChunked (declaredLength : Nat)
  deriving DecidableEq, Repr

/-- `SdkBody::bytes()`: the full bytes of a non-streaming body. -/
def SdkBody.bytes : SdkBody → Option (List Char)
  | SdkBody.inMemory bs => some bs
  | _ => none

/-- `SdkBody::size_hint().exact()`. -/
def SdkBody.sizeHintExact : SdkBody → Option Nat
  | SdkBody.inMemory bs => some bs.length
  | SdkBody.streaming h => h
  | SdkBody.awsChunked _ => none

/-- An HTTP request as the interceptor sees it: a body and headers. -/
structure HttpRequest where
  body : SdkBody
  headers : List (String × String)
  deriving DecidableEq, Repr

/-- `HeaderMap::insert`: replace any header of that name. -/
def insertHeader (hs : List (String × String)) (name value : String) :
    List (String × String) :=
  hs.filter (fun h => h.1 ≠ name) ++ [(name, value)]

/-- `HeaderMap::append`: add a header, keeping existing ones. -/
def appendHeader (hs : List (String × String)) (name value : String) :
    List (String × String) :=
  hs ++ [(name, value)]

/-- The build error of the interceptor. -/
inductive ChunkedInterceptorError where
  | unsizedRequestBody
  deriving DecidableEq, Repr

/-- `AwsChunkedContentEncodingInterceptor::modify_before_transmit`: a
non-streaming body is left untouched; a streaming body must report an
exact size, else the `UnsizedRequestBody` build error; on success the
body is replaced by the aws-chunked framing and the caller-visible
headers gain the decoded content length (inserted) and the
`aws-chunked` content encoding (appended). -/
def modifyBeforeTransmit (req : HttpRequest) : Except ChunkedInterceptorError HttpRequest :=
  if (req.body.bytes).isSome then Except.ok req
  else
    match req.body.sizeHintExact with
    | none => Except.error ChunkedInterceptorError.unsizedRequestBody
    | some originalBodySize =>
      Except.ok
        { body := SdkBody.awsChunked originalBodySize
          headers := appendHeader
            (insertHeader req.headers "x-amz-decoded-content-length"
              (toString originalBodySize))
            "content-encoding" "aws-chunked" }

/-! ## Claims C7 and C10 -/

/-- Claim C7: over a streaming body the interceptor fails with the
unsized-body error exactly when the body cannot report an exact length;
when it reports length `n`, it succeeds, the body is replaced by the
aws-chunked framing with declared length `n`, and the transmitted
headers carry the true decoded content length `n` and the
`aws-chunked` content encoding. -/
theorem chunked_construction_unsized (req : HttpRequest)
    (hstream : req.body.bytes = none) :
    ((modifyBeforeTransmit req = Except.error ChunkedInterceptorError.unsizedRequestBody)
        ↔ req.body.sizeHintExact = none) ∧
    (∀ n, req.body.sizeHintExact = some n →
      ∃ req2, modifyBeforeTransmit req = Except.ok req2 ∧
        req2.body = SdkBody.awsChunked n ∧
        ("x-amz-decoded-content-length", toString n) ∈ req2.headers ∧
        ("content-encoding", "aws-chunked") ∈ req2.headers) := by
  have hnotsome : (req.body.bytes).isSome = false := by rw [hstream]; rfl
  constructor
  · constructor
    · intro herr
      cases hsz : req.body.sizeHintExact with
      | none => rfl
      | some n =>
        rw [modifyBeforeTransmit.eq_def, hnotsome] at herr
        simp only [Bool.false_eq_true, if_false, hsz] at herr
        exact Except.noConfusion herr
    · intro hsz
      rw [modifyBeforeTransmit.eq_def, hnotsome]
      simp only [Bool.false_eq_true, if_false, hsz]
  · intro n hsz
    refine ⟨HttpRequest.mk (SdkBody.awsChunked n)
      (appendHeader (insertHeader req.headers "x-amz-decoded-content-length" (toString n))
        "content-encoding" "aws-chunked"), ?_, rfl, ?_, ?_⟩
    · rw [modifyBeforeTransmit.eq_def, hnotsome]
      simp only [Bool.false_eq_true, if_false, hsz]
    · show ("x-amz-decoded-content-length", toString n)
        ∈ appendHeader (insertHeader req.headers "x-amz-decoded-content-length" (toString n))
            "content-encoding" "aws-chunked"
      unfold appendHeader insertHeader
      simp
    · show ("content-encoding", "aws-chunked")
        ∈ appendHeader (insertHeader req.headers "x-amz-decoded-content-length" (toString n))
            "content-encoding" "aws-chunked"
      unfold appendHeader
      simp

/-- Witness for C7: a streaming body of exact size five. -/
theorem chunked_construction_unsized_witness :
    (modifyBeforeTransmit ⟨SdkBody.streaming (some 5), []⟩
        = Except.error ChunkedInterceptorError.unsizedRequestBody)
      ↔ (SdkBody.streaming (some 5)).sizeHintExact = none :=
  (chunked_construction_unsized ⟨SdkBody.streaming (some 5), []⟩ rfl).1

/-- Claim C10: when the outgoing body is a non-streaming in-memory body
(its full bytes are available), `modify_before_transmit` returns success
and leaves the request — body and headers — entirely unchanged. -/
theorem in_memory_body_untouched (req : HttpRequest) (bs : List Char)
    (hmem : req.body.bytes = some bs) :
    modifyBeforeTransmit req = Except.ok req := by
  rw [modifyBeforeTransmit.eq_def, hmem]
  rfl

/-- Witness for C10: a two-byte in-memory body with one header. -/
theorem in_memory_body_untouched_witness :
    modifyBeforeTransmit ⟨SdkBody.inMemory ['h', 'i'], [("a", "b")]⟩
      = Except.ok ⟨SdkBody.inMemory ['h', 'i'], [("a", "b")]⟩ :=
  in_memory_body_untouched ⟨SdkBody.inMemory ['h', 'i'], [("a", "b")]⟩ ['h', 'i'] rfl
